import Mathlib

/-!
Verification of the miau-index data unification and torrent indexing engines.

The definitions below are shallow embeddings of the TypeScript sources:
`src/services/NyaaService.ts` (classes `NyaaService` and
`AnimeUnificationService`), `src/models/Anime.ts`, `src/models/Torrent.ts`,
`src/types/common.ts` and `src/repositories/AnimeRepository.ts`.

Modelling conventions: JavaScript numbers are `Nat`/`Int`/`Rat` (with `none`
standing for `NaN` where it can arise); `Date` values are `Nat` clock ticks
passed explicitly to the functions that call `new Date()`; `undefined` is
`Option.none`; a JS `Map` is an insertion-ordered association list; the JS
default `Array.prototype.sort` is a stable sort by code-unit string
comparison; `<string>.includes` is substring containment.
-/

namespace MiauIndex

/-- Strict lexicographic order on character lists: the code-unit comparison
JavaScript uses for relational operators on strings. -/
def lexLt : List Char → List Char → Bool
  | [], [] => false
  | [], _ :: _ => true
  | _ :: _, [] => false
  | a :: as, b :: bs => if a = b then lexLt as bs else decide (a < b)

/-- Strict alphabetical order on strings (code-unit lexicographic). -/
def strLt (a b : String) : Prop := lexLt a.data b.data = true

instance : DecidableRel strLt := fun _ _ => instDecidableEqBool _ _

theorem lexLt_irrefl (l : List Char) : lexLt l l = false := by
  induction l with
  | nil => rfl
  | cons a as ih => simp [lexLt, ih]

theorem lexLt_trans : ∀ {a b c : List Char},
    lexLt a b = true → lexLt b c = true → lexLt a c = true := by
  intro a
  induction a with
  | nil =>
    intro b c hab hbc
    cases b with
    | nil => simp [lexLt] at hab
    | cons y ys =>
      cases c with
      | nil => simp [lexLt] at hbc
      | cons z zs => simp [lexLt]
  | cons x xs ih =>
    intro b c hab hbc
    cases b with
    | nil => simp [lexLt] at hab
    | cons y ys =>
      cases c with
      | nil => simp [lexLt] at hbc
      | cons z zs =>
        simp only [lexLt] at hab hbc ⊢
        by_cases hxy : x = y
        · by_cases hyz : y = z
          · have hxz : x = z := hxy.trans hyz
            rw [if_pos hxy] at hab
            rw [if_pos hyz] at hbc
            rw [if_pos hxz]
            exact ih hab hbc
          · have hxz : x ≠ z := fun h => hyz (hxy ▸ h)
            rw [if_neg hyz] at hbc
            rw [if_neg hxz]
            exact hxy ▸ hbc
        · rw [if_neg hxy] at hab
          have hlt_xy : x < y := of_decide_eq_true hab
          by_cases hyz : y = z
          · have hlt_xz : x < z := hyz ▸ hlt_xy
            rw [if_neg (ne_of_lt hlt_xz)]
            exact decide_eq_true hlt_xz
          · rw [if_neg hyz] at hbc
            have hlt_yz : y < z := of_decide_eq_true hbc
            have hlt_xz : x < z := lt_trans hlt_xy hlt_yz
            rw [if_neg (ne_of_lt hlt_xz)]
            exact decide_eq_true hlt_xz

theorem lexLt_connex : ∀ {a b : List Char},
    lexLt a b = false → lexLt b a = false → a = b := by
  intro a
  induction a with
  | nil =>
    intro b hab _
    cases b with
    | nil => rfl
    | cons y ys => simp [lexLt] at hab
  | cons x xs ih =>
    intro b hab hba
    cases b with
    | nil => simp [lexLt] at hba
    | cons y ys =>
      simp only [lexLt] at hab hba
      by_cases hxy : x = y
      · subst hxy
        simp only [if_pos rfl] at hab hba
        exact congrArg (x :: ·) (ih hab hba)
      · simp only [if_neg hxy] at hab
        have hyx : y ≠ x := fun h => hxy h.symm
        simp only [if_neg hyx] at hba
        have h1 : ¬ x < y := of_decide_eq_false hab
        have h2 : ¬ y < x := of_decide_eq_false hba
        exact absurd (lt_or_gt_of_ne hxy).elim (by tauto)

theorem strLt_irrefl (a : String) : ¬ strLt a a := by
  simp [strLt, lexLt_irrefl]

theorem strLt_trans {a b c : String} (h1 : strLt a b) (h2 : strLt b c) :
    strLt a c := lexLt_trans h1 h2

theorem strLt_connex {a b : String} (h1 : ¬ strLt a b) (h2 : ¬ strLt b a) :
    a = b := by
  have hd : a.data = b.data :=
    lexLt_connex (Bool.of_not_eq_true h1) (Bool.of_not_eq_true h2)
  cases a with
  | mk da => cases b with
    | mk db => exact congrArg String.mk hd

/-- Stable insertion used to model the (stable) JavaScript `Array.prototype.sort`:
an element is inserted before the first already-placed element it compares
`le` to, and already-placed elements all come later in the original array. -/
def orderedInsert {α : Type} (le : α → α → Bool) (x : α) : List α → List α
  | [] => [x]
  | y :: ys => if le x y then x :: y :: ys else y :: orderedInsert le x ys

/-- Stable sort by the boolean comparator `le`, modelling JS `sort`. -/
def stableSort {α : Type} (le : α → α → Bool) (l : List α) : List α :=
  l.foldr (orderedInsert le) []

theorem orderedInsert_perm {α : Type} (le : α → α → Bool) (x : α) :
    ∀ l : List α, List.Perm (orderedInsert le x l) (x :: l) := by
  intro l
  induction l with
  | nil => simp [orderedInsert]
  | cons y ys ih =>
    simp only [orderedInsert]
    by_cases h : le x y = true
    · simp [h]
    · simp only [Bool.not_eq_true] at h
      simp only [h, Bool.false_eq_true, if_false]
      exact ((ih.cons y).trans (List.Perm.swap x y ys))

theorem stableSort_perm {α : Type} (le : α → α → Bool) (l : List α) :
    List.Perm (stableSort le l) l := by
  induction l with
  | nil => rfl
  | cons x xs ih =>
    simp only [stableSort, List.foldr] at ih ⊢
    exact (orderedInsert_perm le x _).trans (ih.cons x)

theorem mem_stableSort {α : Type} (le : α → α → Bool) (l : List α) (x : α) :
    x ∈ stableSort le l ↔ x ∈ l := (stableSort_perm le l).mem_iff

theorem sorted_orderedInsert {α : Type} (le : α → α → Bool)
    (htot : ∀ a b, le a b = false → le b a = true)
    (htrans : ∀ a b c, le a b = true → le b c = true → le a c = true)
    (x : α) :
    ∀ l : List α, l.Pairwise (fun a b => le a b = true) →
      (orderedInsert le x l).Pairwise (fun a b => le a b = true) := by
  intro l
  induction l with
  | nil => intro _; simp [orderedInsert]
  | cons y ys ih =>
    intro hs
    rw [List.pairwise_cons] at hs
    simp only [orderedInsert]
    by_cases h : le x y = true
    · rw [if_pos h, List.pairwise_cons]
      constructor
      · intro z hz
        rcases List.mem_cons.mp hz with hz | hz
        · exact hz ▸ h
        · exact htrans x y z h (hs.1 z hz)
      · exact List.pairwise_cons.mpr hs
    · rw [if_neg h, List.pairwise_cons]
      refine ⟨?_, ih hs.2⟩
      intro z hz
      rcases List.mem_cons.mp ((orderedInsert_perm le x ys).mem_iff.mp hz) with hz | hz
      · rw [hz]
        exact htot x y (Bool.not_eq_true _ |>.mp h)
      · exact hs.1 z hz

theorem sorted_stableSort {α : Type} (le : α → α → Bool)
    (htot : ∀ a b, le a b = false → le b a = true)
    (htrans : ∀ a b c, le a b = true → le b c = true → le a c = true)
    (l : List α) :
    (stableSort le l).Pairwise (fun a b => le a b = true) := by
  induction l with
  | nil => simp [stableSort]
  | cons x xs ih => exact sorted_orderedInsert le htot htrans x _ ih

theorem eq_of_pairwise_strLt_of_mem_iff :
    ∀ {l₁ l₂ : List String}, l₁.Pairwise strLt → l₂.Pairwise strLt →
      (∀ x, x ∈ l₁ ↔ x ∈ l₂) → l₁ = l₂ := by
  intro l₁
  induction l₁ with
  | nil =>
    intro l₂ _ _ hmem
    cases l₂ with
    | nil => rfl
    | cons y ys => exact absurd ((hmem y).mpr (List.mem_cons_self y ys)) (List.not_mem_nil y)
  | cons x xs ih =>
    intro l₂ h₁ h₂ hmem
    cases l₂ with
    | nil => exact absurd ((hmem x).mp (List.mem_cons_self x xs)) (List.not_mem_nil x)
    | cons y ys =>
      rw [List.pairwise_cons] at h₁ h₂
      have hxy : x = y := by
        rcases List.mem_cons.mp ((hmem x).mp (List.mem_cons_self x xs)) with h | hxys
        · exact h
        · rcases List.mem_cons.mp ((hmem y).mpr (List.mem_cons_self y ys)) with h | hyxs
          · exact h.symm
          · exact absurd (strLt_trans (h₂.1 x hxys) (h₁.1 y hyxs)) (strLt_irrefl y)
      subst hxy
      refine congrArg (x :: ·) (ih h₁.2 h₂.2 ?_)
      intro z
      constructor
      · intro hz
        have hltz : strLt x z := h₁.1 z hz
        have hne : z ≠ x := by
          intro h
          rw [h] at hltz
          exact strLt_irrefl x hltz
        rcases List.mem_cons.mp ((hmem z).mp (List.mem_cons.mpr (Or.inr hz))) with h | h
        · exact absurd h hne
        · exact h
      · intro hz
        have hltz : strLt x z := h₂.1 z hz
        have hne : z ≠ x := by
          intro h
          rw [h] at hltz
          exact strLt_irrefl x hltz
        rcases List.mem_cons.mp ((hmem z).mpr (List.mem_cons.mpr (Or.inr hz))) with h | h
        · exact absurd h hne
        · exact h

/-! ## Data model (`src/types/common.ts`, `src/models/Anime.ts`) -/

/-- Enum `DataSource` from `src/types/common.ts`. -/
inductive DataSource
  | MYANIMELIST
  | ANILIST
  | KITSU
  | ANIDB
  | TMDB
deriving DecidableEq

/-- Interface `ExternalId` from `src/types/common.ts`. -/
structure ExternalId where
  source : DataSource
  id : String
deriving DecidableEq

/-- Interface `Rating` from `src/types/common.ts`; the float `score` is kept
abstract as a rational. -/
structure Rating where
  source : DataSource
  score : Option ℚ := none
  votes : Option Nat := none
  rank : Option Nat := none
  popularity : Option Nat := none
deriving DecidableEq

/-- Interface `Title` from `src/types/common.ts`. -/
structure Title where
  romaji : Option String := none
  english : Option String := none
  native : Option String := none
  synonyms : Option (List String) := none
deriving DecidableEq

/-- Enum `AnimeType` from `src/types/common.ts`. -/
inductive AnimeType
  | TV
  | MOVIE
  | OVA
  | ONA
  | SPECIAL
  | MUSIC
deriving DecidableEq

/-- Enum `AnimeStatus` from `src/types/common.ts`. -/
inductive AnimeStatus
  | AIRING
  | FINISHED
  | NOT_YET_AIRED
  | CANCELLED
deriving DecidableEq

/-- Interface `Anime` from `src/models/Anime.ts`. Nested shapes that the
unifier copies opaquely through the object spread (images, trailer, aired,
broadcast, relations, adaptations) are represented by scalar stand-ins with
the same copy-through behaviour; `Date` fields are clock ticks. -/
structure Anime where
  id : String
  title : Title := {}
  type : AnimeType := AnimeType.TV
  status : AnimeStatus := AnimeStatus.FINISHED
  episodes : Option Nat := none
  duration : Option Nat := none
  year : Option Nat := none
  synopsis : Option String := none
  background : Option String := none
  ratings : List Rating := []
  genres : List String := []
  themes : List String := []
  demographics : Option (List String) := none
  studios : List String := []
  producers : List String := []
  licensors : List String := []
  externalIds : List ExternalId := []
  createdAt : Nat := 0
  updatedAt : Nat := 0
  lastSyncedAt : Nat := 0
deriving DecidableEq

/-- Interface `UnificationOptions` from the `AnimeUnificationService` source,
with the defaults applied by the destructuring in `unifyAnimeData`. -/
structure UnificationOptions where
  preferredSources : List DataSource := []
  minSourcesForConsensus : Option Nat := none
  mergeArrays : Bool := true
deriving DecidableEq

/-! ## Anime field unifier (`AnimeUnificationService`) -/

/-- Method `selectBestValue`: drop undefined values; zero left gives
undefined, one gives it, several give the first in source-iteration order.
The `_preferredSources` parameter is accepted and ignored, as in the source. -/
def selectBestValue {T : Type} (values : List (Option T))
    (_preferredSources : List DataSource) : Option T :=
  let defined := values.reduceOption
  match defined with
  | [] => none
  | [v] => some v
  | v :: _ :: _ => some v

/-- The Set insertion inside `mergeArrayFields`: `if (item) merged.add(item)`
adds a truthy (non-empty) string once, keeping first-insertion order. -/
def jsSetAdd (s : List String) (item : String) : List String :=
  if item = "" then s else if item ∈ s then s else s ++ [item]

/-- The loop of `mergeArrayFields`: fold every array into one insertion-ordered
deduplicated list. -/
def collectMerged (arrays : List (List String)) : List String :=
  arrays.foldl (fun acc arr => arr.foldl jsSetAdd acc) []

/-- Comparator of the JS default `Array.prototype.sort()`: ascending by
code-unit string comparison. -/
def strLeB (a b : String) : Bool := ! lexLt b.data a.data

/-- Method `mergeArrayFields`: deduplicate all arrays into a Set, then
`Array.from(merged).sort()`. -/
def mergeArrayFields (arrays : List (List String)) : List String :=
  stableSort strLeB (collectMerged arrays)

/-- Comparator `(a, b) => b.length - a.length` used on synopses: descending by
length, stable. -/
def lenDescLeB (a b : String) : Bool := decide (b.length ≤ a.length)

/-- Method `unifyAnimeData`: merges N source records into one canonical record,
starting from a spread of the first source. Calling it with an empty list
faults in the source (`sources[0]` is `undefined`), modelled as `none`.
`now` stands for the `new Date()` calls at the end. -/
def unifyAnimeData (sources : List Anime) (options : UnificationOptions)
    (now : Nat) : Option Anime :=
  match sources with
  | [] => none
  | base :: _ =>
    let preferredSources := options.preferredSources
    let mergeArrays := options.mergeArrays
    let title : Title :=
      { romaji := selectBestValue (sources.map (fun s => s.title.romaji)) preferredSources
        english := selectBestValue (sources.map (fun s => s.title.english)) preferredSources
        native := selectBestValue (sources.map (fun s => s.title.native)) preferredSources
        synonyms :=
          if mergeArrays then
            some (mergeArrayFields (sources.map (fun s => s.title.synonyms.getD [])))
          else base.title.synonyms }
    let synopses := ((sources.map (fun s => s.synopsis)).reduceOption).filter (fun s => s ≠ "")
    let synopsis :=
      match stableSort lenDescLeB synopses with
      | [] => base.synopsis
      | best :: _ => some best
    some { base with
      title := title
      synopsis := synopsis
      ratings := (sources.map (fun s => s.ratings)).flatten
      genres := if mergeArrays then mergeArrayFields (sources.map (fun s => s.genres)) else base.genres
      themes := if mergeArrays then mergeArrayFields (sources.map (fun s => s.themes)) else base.themes
      studios := if mergeArrays then mergeArrayFields (sources.map (fun s => s.studios)) else base.studios
      producers := if mergeArrays then mergeArrayFields (sources.map (fun s => s.producers)) else base.producers
      externalIds := (sources.map (fun s => s.externalIds)).flatten
      lastSyncedAt := now
      updatedAt := now }

/-! ## Properties of `mergeArrayFields` -/

theorem mem_jsSetAdd (s : List String) (item x : String) :
    x ∈ jsSetAdd s item ↔ x ∈ s ∨ (x = item ∧ item ≠ "") := by
  unfold jsSetAdd
  by_cases h0 : item = ""
  · simp [h0]
  · rw [if_neg h0]
    by_cases hm : item ∈ s
    · rw [if_pos hm]
      constructor
      · exact Or.inl
      · rintro (h | ⟨rfl, _⟩)
        · exact h
        · exact hm
    · rw [if_neg hm]
      simp only [List.mem_append, List.mem_singleton]
      tauto

theorem nodup_jsSetAdd {s : List String} (h : s.Nodup) (item : String) :
    (jsSetAdd s item).Nodup := by
  unfold jsSetAdd
  by_cases h0 : item = ""
  · simp [h0, h]
  · rw [if_neg h0]
    by_cases hm : item ∈ s
    · simp [hm, h]
    · rw [if_neg hm]
      refine List.Nodup.append h (List.nodup_singleton item) ?_
      intro x hx hx2
      exact hm ((List.mem_singleton.mp hx2) ▸ hx)

theorem mem_foldl_jsSetAdd (arr : List String) :
    ∀ (acc : List String) (x : String),
      x ∈ arr.foldl jsSetAdd acc ↔ x ∈ acc ∨ (x ∈ arr ∧ x ≠ "") := by
  induction arr with
  | nil => intro acc x; simp
  | cons a as ih =>
    intro acc x
    simp only [List.foldl_cons]
    rw [ih (jsSetAdd acc a) x, mem_jsSetAdd]
    constructor
    · rintro ((h | ⟨heq, hne⟩) | ⟨h, hne⟩)
      · exact Or.inl h
      · rw [heq]
        exact Or.inr ⟨List.mem_cons_self a as, hne⟩
      · exact Or.inr ⟨List.mem_cons.mpr (Or.inr h), hne⟩
    · rintro (h | ⟨hmem, hne⟩)
      · exact Or.inl (Or.inl h)
      · rcases List.mem_cons.mp hmem with rfl | h
        · exact Or.inl (Or.inr ⟨rfl, hne⟩)
        · exact Or.inr ⟨h, hne⟩

theorem nodup_foldl_jsSetAdd (arr : List String) :
    ∀ {acc : List String}, acc.Nodup → (arr.foldl jsSetAdd acc).Nodup := by
  induction arr with
  | nil => intro acc h; exact h
  | cons a as ih =>
    intro acc h
    exact ih (nodup_jsSetAdd h a)

theorem mem_collectMerged (arrays : List (List String)) (x : String) :
    x ∈ collectMerged arrays ↔ x ≠ "" ∧ ∃ arr ∈ arrays, x ∈ arr := by
  have key : ∀ (ars : List (List String)) (acc : List String),
      x ∈ ars.foldl (fun acc arr => arr.foldl jsSetAdd acc) acc ↔
        x ∈ acc ∨ (x ≠ "" ∧ ∃ arr ∈ ars, x ∈ arr) := by
    intro ars
    induction ars with
    | nil => intro acc; simp
    | cons a as ih =>
      intro acc
      simp only [List.foldl_cons]
      rw [ih, mem_foldl_jsSetAdd]
      constructor
      · rintro ((h | ⟨h, hne⟩) | ⟨hne, arr, harr, hx⟩)
        · exact Or.inl h
        · exact Or.inr ⟨hne, a, List.mem_cons_self a as, h⟩
        · exact Or.inr ⟨hne, arr, List.mem_cons.mpr (Or.inr harr), hx⟩
      · rintro (h | ⟨hne, arr, harr, hx⟩)
        · exact Or.inl (Or.inl h)
        · rcases List.mem_cons.mp harr with rfl | h
          · exact Or.inl (Or.inr ⟨hx, hne⟩)
          · exact Or.inr ⟨hne, arr, h, hx⟩
  rw [collectMerged, key arrays []]
  simp

theorem nodup_collectMerged (arrays : List (List String)) :
    (collectMerged arrays).Nodup := by
  have key : ∀ (ars : List (List String)) (acc : List String), acc.Nodup →
      (ars.foldl (fun acc arr => arr.foldl jsSetAdd acc) acc).Nodup := by
    intro ars
    induction ars with
    | nil => intro acc h; exact h
    | cons a as ih => intro acc h; exact ih _ (nodup_foldl_jsSetAdd a h)
  exact key arrays [] List.nodup_nil

theorem strLeB_total (a b : String) : strLeB a b = false → strLeB b a = true := by
  intro h
  unfold strLeB at h ⊢
  cases hba : lexLt b.data a.data with
  | false => rw [hba] at h; exact absurd h (by simp)
  | true =>
    cases hab : lexLt a.data b.data with
    | false => rfl
    | true => exact absurd (lexLt_trans hba hab) (by rw [lexLt_irrefl b.data]; simp)

theorem str_eq_of_data_eq {a b : String} (h : a.data = b.data) : a = b := by
  cases a
  cases b
  exact congrArg String.mk h

theorem strLeB_trans (a b c : String) :
    strLeB a b = true → strLeB b c = true → strLeB a c = true := by
  intro h1 h2
  unfold strLeB at h1 h2 ⊢
  cases hba : lexLt b.data a.data with
  | true => rw [hba] at h1; exact absurd h1 (by simp)
  | false =>
    cases hcb : lexLt c.data b.data with
    | true => rw [hcb] at h2; exact absurd h2 (by simp)
    | false =>
      cases hca : lexLt c.data a.data with
      | false => rfl
      | true =>
        cases hab : lexLt a.data b.data with
        | true => exact absurd (lexLt_trans hca hab) (by rw [hcb]; simp)
        | false =>
          have hdata : a.data = b.data := lexLt_connex hab hba
          rw [hdata] at hca
          exact absurd hca (by rw [hcb]; simp)

theorem sorted_mergeArrayFields (arrays : List (List String)) :
    (mergeArrayFields arrays).Pairwise strLt := by
  have hsorted := sorted_stableSort strLeB strLeB_total strLeB_trans (collectMerged arrays)
  have hnodup : (stableSort strLeB (collectMerged arrays)).Nodup :=
    ((stableSort_perm strLeB (collectMerged arrays)).nodup_iff).mpr (nodup_collectMerged arrays)
  refine (hsorted.and hnodup).imp ?_
  rintro a b ⟨hle, hne⟩
  unfold strLeB at hle
  unfold strLt
  cases hab : lexLt a.data b.data with
  | true => rfl
  | false =>
    cases hba : lexLt b.data a.data with
    | true => rw [hba] at hle; exact absurd hle (by simp)
    | false => exact absurd (str_eq_of_data_eq (lexLt_connex hab hba)) hne

theorem mem_mergeArrayFields (arrays : List (List String)) (x : String) :
    x ∈ mergeArrayFields arrays ↔ (x ≠ "" ∧ ∃ arr ∈ arrays, x ∈ arr) := by
  rw [mergeArrayFields, mem_stableSort, mem_collectMerged]

theorem nodup_mergeArrayFields (arrays : List (List String)) :
    (mergeArrayFields arrays).Nodup :=
  (stableSort_perm _ _).nodup_iff.mpr (nodup_collectMerged arrays)

/-- Statement of the specified array-field merge, in the spec's own terms: a
deduplicated list, sorted in strictly increasing alphabetical (case-sensitive)
order, whose members are exactly the union of the input arrays (restricted to
truthy, i.e. non-empty, strings — the `if (item)` guard in the source). -/
def SortedDedupUnion (merged : List String) (arrays : List (List String)) : Prop :=
  merged.Nodup ∧ merged.Pairwise strLt ∧
    (∀ x, x ∈ merged ↔ (x ≠ "" ∧ ∃ arr ∈ arrays, x ∈ arr))

theorem mergeArrayFields_spec (arrays : List (List String)) :
    SortedDedupUnion (mergeArrayFields arrays) arrays :=
  ⟨nodup_mergeArrayFields arrays, sorted_mergeArrayFields arrays, mem_mergeArrayFields arrays⟩

theorem mergeArrayFields_idem (arrays : List (List String)) :
    mergeArrayFields [mergeArrayFields arrays] = mergeArrayFields arrays := by
  apply eq_of_pairwise_strLt_of_mem_iff (sorted_mergeArrayFields _) (sorted_mergeArrayFields arrays)
  intro x
  rw [mem_mergeArrayFields, mem_mergeArrayFields]
  constructor
  · rintro ⟨hne, arr, harr, hx⟩
    rw [List.mem_singleton] at harr
    subst harr
    exact (mem_mergeArrayFields arrays x).mp hx
  · intro hx
    refine ⟨hx.1, mergeArrayFields arrays, List.mem_singleton_self _, ?_⟩
    exact (mem_mergeArrayFields arrays x).mpr hx

theorem unifyAnimeData_cons (base : Anime) (rest : List Anime)
    (options : UnificationOptions) (now : Nat) :
    unifyAnimeData (base :: rest) options now = some { base with
      title := {
        romaji := selectBestValue ((base :: rest).map (fun s => s.title.romaji))
          options.preferredSources
        english := selectBestValue ((base :: rest).map (fun s => s.title.english))
          options.preferredSources
        native := selectBestValue ((base :: rest).map (fun s => s.title.native))
          options.preferredSources
        synonyms :=
          if options.mergeArrays then
            some (mergeArrayFields ((base :: rest).map (fun s => s.title.synonyms.getD [])))
          else base.title.synonyms }
      synopsis :=
        match stableSort lenDescLeB
            ((((base :: rest).map (fun s => s.synopsis)).reduceOption).filter (fun s => s ≠ "")) with
        | [] => base.synopsis
        | best :: _ => some best
      ratings := ((base :: rest).map (fun s => s.ratings)).flatten
      genres := if options.mergeArrays then
          mergeArrayFields ((base :: rest).map (fun s => s.genres)) else base.genres
      themes := if options.mergeArrays then
          mergeArrayFields ((base :: rest).map (fun s => s.themes)) else base.themes
      studios := if options.mergeArrays then
          mergeArrayFields ((base :: rest).map (fun s => s.studios)) else base.studios
      producers := if options.mergeArrays then
          mergeArrayFields ((base :: rest).map (fun s => s.producers)) else base.producers
      externalIds := ((base :: rest).map (fun s => s.externalIds)).flatten
      lastSyncedAt := now
      updatedAt := now } := rfl

/-- Two concrete source records with differing licensors arrays. -/
def srcA : Anime :=
  { id := "a", genres := ["Action"], licensors := ["Zeta Films"], synopsis := some "long synopsis" }

/-- Second concrete source record for the counterexamples. -/
def srcB : Anime :=
  { id := "b", genres := ["Drama"], licensors := ["Alpha Media"], synopsis := some "short" }

/-- C1 counterexample: with `mergeArrays = true` (the default), the unified
record keeps the base source's `licensors` array unchanged instead of the
deduplicated sorted union of all sources' licensors, refuting the claim at a
concrete input. -/
theorem licensors_not_merged_counterexample :
    ∃ u, unifyAnimeData [srcA, srcB] {} 0 = some u ∧
      ({} : UnificationOptions).mergeArrays = true ∧
      u.licensors = ["Zeta Films"] ∧
      mergeArrayFields [srcA.licensors, srcB.licensors] = ["Alpha Media", "Zeta Films"] ∧
      u.licensors ≠ mergeArrayFields [srcA.licensors, srcB.licensors] := by
  refine ⟨_, unifyAnimeData_cons srcA [srcB] {} 0, rfl, ?_, ?_, ?_⟩
  · rfl
  · decide
  · decide

/-- C1 (amended): for every non-empty source list, with `mergeArrays = true`
the unified `genres`, `themes`, `studios` and `producers` each equal the
deduplicated, case-sensitive, alphabetically sorted union of the sources'
corresponding non-empty entries, while `licensors` keeps the base (first)
source's array unchanged; with `mergeArrays = false` all five arrays keep the
base source's values unchanged. -/
theorem unifyAnimeData_arrayFields (base : Anime) (rest : List Anime)
    (options : UnificationOptions) (now : Nat) :
    ∃ u, unifyAnimeData (base :: rest) options now = some u ∧
      (options.mergeArrays = true →
        SortedDedupUnion u.genres ((base :: rest).map (fun s => s.genres)) ∧
        SortedDedupUnion u.themes ((base :: rest).map (fun s => s.themes)) ∧
        SortedDedupUnion u.studios ((base :: rest).map (fun s => s.studios)) ∧
        SortedDedupUnion u.producers ((base :: rest).map (fun s => s.producers)) ∧
        u.licensors = base.licensors) ∧
      (options.mergeArrays = false →
        u.genres = base.genres ∧ u.themes = base.themes ∧
        u.studios = base.studios ∧ u.producers = base.producers ∧
        u.licensors = base.licensors) := by
  refine ⟨_, unifyAnimeData_cons base rest options now, ?_, ?_⟩
  · intro hm
    simp only [hm, if_true]
    exact ⟨mergeArrayFields_spec _, mergeArrayFields_spec _, mergeArrayFields_spec _,
      mergeArrayFields_spec _, trivial⟩
  · intro hm
    simp only [hm, Bool.false_eq_true, if_false]
    exact ⟨trivial, trivial, trivial, trivial, trivial⟩

/-- C1 witness: the amended theorem applied at a concrete two-source input. -/
theorem unifyAnimeData_arrayFields_witness :
    ∃ u, unifyAnimeData (srcA :: [srcB]) {} 0 = some u ∧
      (({} : UnificationOptions).mergeArrays = true →
        SortedDedupUnion u.genres ((srcA :: [srcB]).map (fun s => s.genres)) ∧
        SortedDedupUnion u.themes ((srcA :: [srcB]).map (fun s => s.themes)) ∧
        SortedDedupUnion u.studios ((srcA :: [srcB]).map (fun s => s.studios)) ∧
        SortedDedupUnion u.producers ((srcA :: [srcB]).map (fun s => s.producers)) ∧
        u.licensors = srcA.licensors) ∧
      (({} : UnificationOptions).mergeArrays = false →
        u.genres = srcA.genres ∧ u.themes = srcA.themes ∧
        u.studios = srcA.studios ∧ u.producers = srcA.producers ∧
        u.licensors = srcA.licensors) :=
  unifyAnimeData_arrayFields srcA [srcB] {} 0

theorem selectBestValue_eq_head {T : Type} (values : List (Option T))
    (ps : List DataSource) :
    selectBestValue values ps = values.reduceOption.head? := by
  unfold selectBestValue
  cases h : values.reduceOption with
  | nil => rfl
  | cons v vs => cases vs <;> rfl

theorem selectBestValue_single {T : Type} (o : Option T) (ps : List DataSource) :
    selectBestValue [o] ps = o := by
  rw [selectBestValue_eq_head]
  cases o <;> rfl

/-- Concrete sources exercising scalar-field selection. -/
def srcT1 : Anime :=
  { id := "t1", title := { english := some "English One" } }

/-- Second concrete source for scalar-field selection. -/
def srcT2 : Anime :=
  { id := "t2", title := { romaji := some "Romaji Two", english := some "English Two" } }

/-- C2: every scalar title field of the unified record is the first defined
value in source-iteration order (`undefined` when none is defined, the unique
value when exactly one is), and replacing `preferredSources` by any other list
does not change the unification result at all. -/
theorem unifyAnimeData_scalar_selection (base : Anime) (rest : List Anime)
    (options : UnificationOptions) (now : Nat) :
    ∃ u, unifyAnimeData (base :: rest) options now = some u ∧
      u.title.romaji = (((base :: rest).map (fun s => s.title.romaji)).reduceOption).head? ∧
      u.title.english = (((base :: rest).map (fun s => s.title.english)).reduceOption).head? ∧
      u.title.native = (((base :: rest).map (fun s => s.title.native)).reduceOption).head? ∧
      (∀ ps : List DataSource,
        unifyAnimeData (base :: rest) { options with preferredSources := ps } now =
          unifyAnimeData (base :: rest) options now) := by
  refine ⟨_, unifyAnimeData_cons base rest options now, ?_, ?_, ?_, ?_⟩
  · simp only [selectBestValue_eq_head]
  · simp only [selectBestValue_eq_head]
  · simp only [selectBestValue_eq_head]
  · intro ps
    rw [unifyAnimeData_cons, unifyAnimeData_cons]
    simp only [selectBestValue_eq_head]

/-- C2 witness: the theorem applied at a concrete two-source input; at this
input the unified romaji is the second source's (the only defined one) and the
unified english is the first source's. -/
theorem unifyAnimeData_scalar_selection_witness :
    ∃ u, unifyAnimeData (srcT1 :: [srcT2]) {} 0 = some u ∧
      u.title.romaji = (((srcT1 :: [srcT2]).map (fun s => s.title.romaji)).reduceOption).head? ∧
      u.title.english = (((srcT1 :: [srcT2]).map (fun s => s.title.english)).reduceOption).head? ∧
      u.title.native = (((srcT1 :: [srcT2]).map (fun s => s.title.native)).reduceOption).head? ∧
      (∀ ps : List DataSource,
        unifyAnimeData (srcT1 :: [srcT2]) { ({} : UnificationOptions) with preferredSources := ps } 0 =
          unifyAnimeData (srcT1 :: [srcT2]) {} 0) :=
  unifyAnimeData_scalar_selection srcT1 [srcT2] {} 0

/-- A single source record carrying two rating entries. -/
def srcTwoRatings : Anime :=
  { id := "c"
    ratings := [{ source := DataSource.MYANIMELIST, score := some 8 },
                { source := DataSource.ANILIST, score := some 7 }] }

/-- C3 counterexample: a single source with two rating entries yields a
unified ratings array of length 2, while the number of sources that returned
a score-bearing record is 1 — the lengths are concatenated, not capped at one
per source. -/
theorem ratings_length_counterexample :
    ∃ u, unifyAnimeData [srcTwoRatings] {} 0 = some u ∧
      u.ratings.length = 2 ∧
      (([srcTwoRatings] : List Anime).countP (fun s => !s.ratings.isEmpty)) = 1 ∧
      u.ratings.length ≠
        (([srcTwoRatings] : List Anime).countP (fun s => !s.ratings.isEmpty)) := by
  refine ⟨_, unifyAnimeData_cons srcTwoRatings [] {} 0, rfl, rfl, ?_⟩
  intro h
  simp [srcTwoRatings] at h

theorem sum_ratings_length_eq_countP :
    ∀ l : List Anime, (∀ s ∈ l, s.ratings.length ≤ 1) →
      (l.map (fun s => s.ratings.length)).sum = l.countP (fun s => !s.ratings.isEmpty) := by
  intro l
  induction l with
  | nil => intro _; rfl
  | cons a as ih =>
    intro h
    have ha := h a (List.mem_cons_self a as)
    have has := ih (fun s hs => h s (List.mem_cons.mpr (Or.inr hs)))
    simp only [List.map_cons, List.sum_cons, List.countP_cons, has]
    cases hr : a.ratings with
    | nil => simp [hr]
    | cons r rs =>
      cases rs with
      | nil => simp [hr, Nat.add_comm]
      | cons r2 rs2 =>
        rw [hr] at ha
        simp at ha

/-- C3 (amended): the unified ratings array is the flat concatenation of all
sources' rating entries (never merged), so its length is the sum of the
per-source ratings lengths; whenever every source carries at most one rating
entry, this equals the number of sources that returned a rating. -/
theorem unifyAnimeData_ratings (base : Anime) (rest : List Anime)
    (options : UnificationOptions) (now : Nat) :
    ∃ u, unifyAnimeData (base :: rest) options now = some u ∧
      u.ratings = ((base :: rest).map (fun s => s.ratings)).flatten ∧
      u.ratings.length = ((base :: rest).map (fun s => s.ratings.length)).sum ∧
      ((∀ s ∈ base :: rest, s.ratings.length ≤ 1) →
        u.ratings.length = (base :: rest).countP (fun s => !s.ratings.isEmpty)) := by
  refine ⟨_, unifyAnimeData_cons base rest options now, rfl, ?_, ?_⟩
  · show (((base :: rest).map (fun s => s.ratings)).flatten).length = _
    rw [List.length_flatten, List.map_map]
    rfl
  · intro h
    show (((base :: rest).map (fun s => s.ratings)).flatten).length = _
    rw [List.length_flatten, List.map_map]
    exact sum_ratings_length_eq_countP (base :: rest) h

/-- A source with exactly one rating entry. -/
def srcOneRating : Anime :=
  { id := "r1", ratings := [{ source := DataSource.KITSU, score := some 9 }] }

/-- A source with no rating entry. -/
def srcNoRating : Anime :=
  { id := "r0" }

/-- C3 witness: the amended theorem applied at a concrete two-source input
where each source carries one rating entry. -/
theorem unifyAnimeData_ratings_witness :
    (∃ u, unifyAnimeData (srcOneRating :: [srcNoRating]) {} 0 = some u ∧
      u.ratings = ((srcOneRating :: [srcNoRating]).map (fun s => s.ratings)).flatten ∧
      u.ratings.length =
        ((srcOneRating :: [srcNoRating]).map (fun s => s.ratings.length)).sum ∧
      ((∀ s ∈ srcOneRating :: [srcNoRating], s.ratings.length ≤ 1) →
        u.ratings.length =
          (srcOneRating :: [srcNoRating]).countP (fun s => !s.ratings.isEmpty))) :=
  unifyAnimeData_ratings srcOneRating [srcNoRating] {} 0

theorem synopsis_single (o : Option String) :
    (match stableSort lenDescLeB ((List.reduceOption [o]).filter (fun s => s ≠ "")) with
      | [] => o
      | best :: _ => some best) = o := by
  cases o with
  | none => rfl
  | some s =>
    by_cases hs : s = ""
    · subst hs
      rfl
    · have hf : (List.reduceOption [some s]).filter (fun t => t ≠ "") = [s] := by
        simp [List.reduceOption, hs]
      rw [hf]
      rfl

/-- C9: unifying the singleton list containing the output of a singleton
unification reproduces that output exactly, except for the `updatedAt` and
`lastSyncedAt` bookkeeping fields, which take the later clock tick. -/
theorem unifyAnimeData_idempotent (a : Anime) (options : UnificationOptions)
    (t₁ t₂ : Nat) :
    ∃ u, unifyAnimeData [a] options t₁ = some u ∧
      unifyAnimeData [u] options t₂ =
        some { u with lastSyncedAt := t₂, updatedAt := t₂ } := by
  refine ⟨_, unifyAnimeData_cons a [] options t₁, ?_⟩
  rw [unifyAnimeData_cons]
  cases hm : options.mergeArrays with
  | true =>
    simp only [hm, if_true, List.map_cons, List.map_nil, List.flatten_cons, List.flatten_nil,
      List.append_nil, Option.getD_some, selectBestValue_single, mergeArrayFields_idem,
      synopsis_single, Option.some.injEq]
  | false =>
    simp only [hm, Bool.false_eq_true, if_false, List.map_cons, List.map_nil,
      List.flatten_cons, List.flatten_nil, List.append_nil, selectBestValue_single,
      synopsis_single, Option.some.injEq]

/-- C9 witness: idempotence applied at a concrete single-source record. -/
theorem unifyAnimeData_idempotent_witness :
    ∃ u, unifyAnimeData [srcA] {} 0 = some u ∧
      unifyAnimeData [u] {} 1 = some { u with lastSyncedAt := 1, updatedAt := 1 } :=
  unifyAnimeData_idempotent srcA {} 0 1

/-! ## Fetch-and-unify (`AnimeUnificationService.fetchAndUnify`) -/

/-- Outcome of one iteration of the fetch loop in `fetchAndUnify` for one
requested `{source, id}` pair: the provider may be unregistered, its
`fetchAnimeById` may throw (caught and logged), return `null`, or return a
record. Only the last case contributes to `animeDataFromSources`. -/
inductive FetchOutcome
  | noProvider
  | fetchThrew
  | fetchedNull
  | fetched (anime : Anime)
deriving DecidableEq

/-- The contributing set collected by the fetch loop: fetch failures and null
results are excluded. -/
def fetchResults (fetches : List FetchOutcome) : List Anime :=
  fetches.filterMap (fun f =>
    match f with
    | FetchOutcome.fetched a => some a
    | _ => none)

/-- JS `Map.set` on an insertion-ordered association list: an existing key
keeps its position, a new key is appended. -/
def mapSet (repo : List (String × Anime)) (key : String) (v : Anime) :
    List (String × Anime) :=
  match repo with
  | [] => [(key, v)]
  | (k, w) :: rest => if k = key then (k, v) :: rest else (k, w) :: mapSet rest key v

/-- Method `save` of `InMemoryAnimeRepository`: stamps `updatedAt` with the
current time, stores the record under its id and returns it. -/
def repoSave (repo : List (String × Anime)) (anime : Anime) (now : Nat) :
    Anime × List (String × Anime) :=
  let stamped := { anime with updatedAt := now }
  (stamped, mapSet repo anime.id stamped)

/-- Method `fetchAndUnify`: collect per-source fetch outcomes, throw exactly
when the contributing set is empty, otherwise unify the successes and save the
unified record to the repository. The error string is the thrown message. -/
def fetchAndUnify (fetches : List FetchOutcome) (options : UnificationOptions)
    (now : Nat) (repo : List (String × Anime)) :
    Except String (Anime × List (String × Anime)) :=
  let animeDataFromSources := fetchResults fetches
  match unifyAnimeData animeDataFromSources options now with
  | none => Except.error "No anime data could be fetched from any source"
  | some unified => Except.ok (repoSave repo unified now)

/-- C4: `fetchAndUnify` errors exactly when zero sources return data; fetch
failures and null results never contribute; and when at least one source
returns a record the unification of the successful sources is saved and
returned. -/
theorem fetchAndUnify_total_failure_only (fetches : List FetchOutcome)
    (options : UnificationOptions) (now : Nat) (repo : List (String × Anime)) :
    ((∃ e, fetchAndUnify fetches options now repo = Except.error e) ↔
      fetchResults fetches = []) ∧
    (∀ fs : List FetchOutcome,
      fetchResults (FetchOutcome.fetchThrew :: fs) = fetchResults fs ∧
      fetchResults (FetchOutcome.fetchedNull :: fs) = fetchResults fs ∧
      fetchResults (FetchOutcome.noProvider :: fs) = fetchResults fs) ∧
    (fetchResults fetches ≠ [] →
      ∃ u, unifyAnimeData (fetchResults fetches) options now = some u ∧
        fetchAndUnify fetches options now repo = Except.ok (repoSave repo u now)) := by
  refine ⟨?_, ?_, ?_⟩
  · constructor
    · rintro ⟨e, he⟩
      cases hres : fetchResults fetches with
      | nil => rfl
      | cons b bs =>
        rw [fetchAndUnify] at he
        simp only [hres, unifyAnimeData_cons] at he
        exact Except.noConfusion he
    · intro hres
      refine ⟨"No anime data could be fetched from any source", ?_⟩
      rw [fetchAndUnify]
      simp only [hres]
      rfl
  · intro fs
    exact ⟨rfl, rfl, rfl⟩
  · intro hne
    cases hres : fetchResults fetches with
    | nil => exact absurd hres hne
    | cons b bs =>
      refine ⟨_, unifyAnimeData_cons b bs options now, ?_⟩
      rw [fetchAndUnify]
      simp only [hres, unifyAnimeData_cons]

/-- C4 witness: a mix of one throwing source, one null result and one success
produces a saved unified record; with the success removed, it errors. -/
theorem fetchAndUnify_total_failure_only_witness :
    ((∃ e, fetchAndUnify [FetchOutcome.fetchThrew, FetchOutcome.fetched srcA,
        FetchOutcome.fetchedNull] {} 0 [] = Except.error e) ↔
      fetchResults [FetchOutcome.fetchThrew, FetchOutcome.fetched srcA,
        FetchOutcome.fetchedNull] = []) ∧
    (∀ fs : List FetchOutcome,
      fetchResults (FetchOutcome.fetchThrew :: fs) = fetchResults fs ∧
      fetchResults (FetchOutcome.fetchedNull :: fs) = fetchResults fs ∧
      fetchResults (FetchOutcome.noProvider :: fs) = fetchResults fs) ∧
    (fetchResults [FetchOutcome.fetchThrew, FetchOutcome.fetched srcA,
        FetchOutcome.fetchedNull] ≠ [] →
      ∃ u, unifyAnimeData (fetchResults [FetchOutcome.fetchThrew,
          FetchOutcome.fetched srcA, FetchOutcome.fetchedNull]) {} 0 = some u ∧
        fetchAndUnify [FetchOutcome.fetchThrew, FetchOutcome.fetched srcA,
          FetchOutcome.fetchedNull] {} 0 [] = Except.ok (repoSave [] u 0)) :=
  fetchAndUnify_total_failure_only
    [FetchOutcome.fetchThrew, FetchOutcome.fetched srcA, FetchOutcome.fetchedNull] {} 0 []

/-! ## Season organizer (modelled from the spec) -/

/-- Interface `Episode` from `src/models/Episode.ts`, restricted to the
fields the season organizer manipulates. -/
structure Episode where
  id : String
  animeId : String
  number : Nat
deriving DecidableEq

/-- Season record created by the organizer (interface `AnimeSeason`); the
generated uuid, titles, dates and timestamps are omitted. -/
structure AnimeSeason where
  animeId : String
  seasonNumber : Nat
  episodeCount : Nat
  episodes : List Episode
deriving DecidableEq

/-- Modelled from the spec: the recursion of `organizeIntoSeasons`, whose
implementation is missing from the sources (only the test suite and changelog
reference it). Consecutive chunks of at most 13 episodes become seasons with
consecutive 1-based numbers. -/
def organizeAux (animeId : String) (seasonNumber : Nat) :
    List Episode → List AnimeSeason
  | [] => []
  | e :: rest =>
    { animeId := animeId
      seasonNumber := seasonNumber
      episodeCount := ((e :: rest).take 13).length
      episodes := (e :: rest).take 13 } ::
      organizeAux animeId (seasonNumber + 1) ((e :: rest).drop 13)
termination_by l => l.length
decreasing_by simp [List.length_drop]; omega

/-- Modelled from the spec: `organizeIntoSeasons` partitions a flat ordered
episode list into consecutive chunks of at most 13 episodes; season `k`
(1-based) receives episodes `[(k-1)*13+1 .. k*13]` clipped to the list length,
with `episodeCount` = chunk length and `episodes` = the chunk. -/
def organizeIntoSeasons (animeId : String) (episodes : List Episode) :
    List AnimeSeason :=
  organizeAux animeId 1 episodes

theorem organizeAux_nil (aid : String) (k : Nat) : organizeAux aid k [] = [] := by
  rw [organizeAux]

theorem organizeAux_cons (aid : String) (k : Nat) (e : Episode) (rest : List Episode) :
    organizeAux aid k (e :: rest) =
      { animeId := aid, seasonNumber := k,
        episodeCount := ((e :: rest).take 13).length,
        episodes := (e :: rest).take 13 } ::
        organizeAux aid (k + 1) ((e :: rest).drop 13) := by
  rw [organizeAux]

theorem organizeAux_length (aid : String) :
    ∀ (n : Nat) (l : List Episode) (k : Nat), l.length ≤ n →
      (organizeAux aid k l).length = (l.length + 12) / 13 := by
  intro n
  induction n with
  | zero =>
    intro l k h
    rw [List.eq_nil_of_length_eq_zero (Nat.le_zero.mp h)]
    rw [organizeAux_nil]
    rfl
  | succ n ih =>
    intro l k h
    cases l with
    | nil =>
      rw [organizeAux_nil]
      rfl
    | cons e rest =>
      rw [organizeAux_cons]
      simp only [List.length_cons]
      rw [ih ((e :: rest).drop 13) (k + 1)
        (by simp only [List.length_drop, List.length_cons] at h ⊢; omega)]
      simp only [List.length_drop, List.length_cons]
      rw [show rest.length + 1 + 12 = rest.length + 13 from rfl,
        Nat.add_div_right rest.length (by omega)]
      rcases Nat.lt_or_ge rest.length 12 with hm | hm
      · rw [show rest.length + 1 - 13 + 12 = 12 by omega]
        rw [Nat.div_eq_of_lt (by omega), Nat.div_eq_of_lt (by omega)]
      · rw [show rest.length + 1 - 13 + 12 = rest.length by omega]

theorem organizeAux_flatten (aid : String) :
    ∀ (n : Nat) (l : List Episode) (k : Nat), l.length ≤ n →
      ((organizeAux aid k l).map (fun s => s.episodes)).flatten = l := by
  intro n
  induction n with
  | zero =>
    intro l k h
    rw [List.eq_nil_of_length_eq_zero (Nat.le_zero.mp h), organizeAux_nil]
    rfl
  | succ n ih =>
    intro l k h
    cases l with
    | nil =>
      rw [organizeAux_nil]
      rfl
    | cons e rest =>
      rw [organizeAux_cons]
      simp only [List.map_cons, List.flatten_cons]
      rw [ih ((e :: rest).drop 13) (k + 1)
        (by simp only [List.length_drop, List.length_cons] at h ⊢; omega)]
      exact List.take_append_drop 13 (e :: rest)

theorem organizeAux_getElem (aid : String) :
    ∀ (n : Nat) (l : List Episode) (k i : Nat), l.length ≤ n →
      i < (organizeAux aid k l).length →
      (organizeAux aid k l)[i]? = some
        { animeId := aid, seasonNumber := k + i,
          episodeCount := ((l.drop (i * 13)).take 13).length,
          episodes := (l.drop (i * 13)).take 13 } := by
  intro n
  induction n with
  | zero =>
    intro l k i h hi
    rw [List.eq_nil_of_length_eq_zero (Nat.le_zero.mp h), organizeAux_nil] at hi
    exact absurd hi (by simp)
  | succ n ih =>
    intro l k i h hi
    cases l with
    | nil =>
      rw [organizeAux_nil] at hi
      exact absurd hi (by simp)
    | cons e rest =>
      rw [organizeAux_cons] at hi ⊢
      cases i with
      | zero => simp
      | succ i =>
        rw [List.getElem?_cons_succ]
        rw [List.length_cons, Nat.succ_lt_succ_iff] at hi
        rw [ih ((e :: rest).drop 13) (k + 1) i
          (by simp only [List.length_drop, List.length_cons] at h ⊢; omega) hi]
        rw [List.drop_drop]
        have harith : 13 + i * 13 = (i + 1) * 13 := by ring
        rw [harith]
        have hk : k + 1 + i = k + (i + 1) := by omega
        rw [hk]

theorem countP_of_count_flatten_one {α : Type} [DecidableEq α] (e : α) :
    ∀ css : List (List α), css.flatten.count e = 1 →
      css.countP (fun cs => decide (e ∈ cs)) = 1 := by
  intro css
  induction css with
  | nil => intro h; simp at h
  | cons c cs ih =>
    intro h
    rw [List.flatten_cons, List.count_append] at h
    rw [List.countP_cons]
    by_cases hc : e ∈ c
    · have h1 : 0 < c.count e := List.count_pos_iff.mpr hc
      have h2 : cs.flatten.count e = 0 := by omega
      have h3 : cs.countP (fun cs => decide (e ∈ cs)) = 0 := by
        rw [List.countP_eq_zero]
        intro cs2 hcs2
        simp only [decide_eq_true_eq]
        intro hmem
        have := List.count_pos_iff.mpr (List.mem_flatten.mpr ⟨cs2, hcs2, hmem⟩)
        omega
      simp [hc, h3]
    · have h0 : c.count e = 0 := List.count_eq_zero.mpr hc
      rw [h0, Nat.zero_add] at h
      simp [hc, ih h]

/-- C5: for a non-empty episode list the organizer creates exactly
`ceil(E/13)` seasons with dense 1-based numbers; season `k` (at 0-based index
`k-1`) receives the episodes from position `(k-1)*13+1` through `k*13` clipped
to the list length, with `episodeCount` the chunk length; the concatenation of
all seasons' episodes is the input list, so if the episodes are pairwise
distinct each appears in exactly one season; and at most 13 episodes yield
exactly one season. -/
theorem organizeIntoSeasons_spec (aid : String) (eps : List Episode)
    (h : eps ≠ []) :
    (organizeIntoSeasons aid eps).length = (eps.length + 13 - 1) / 13 ∧
    (∀ i, i < (organizeIntoSeasons aid eps).length →
      (organizeIntoSeasons aid eps)[i]? = some
        { animeId := aid, seasonNumber := i + 1,
          episodeCount := ((eps.drop (i * 13)).take 13).length,
          episodes := (eps.drop (i * 13)).take 13 }) ∧
    ((organizeIntoSeasons aid eps).map (fun s => s.episodes)).flatten = eps ∧
    (eps.Nodup → ∀ e ∈ eps,
      ((organizeIntoSeasons aid eps).countP (fun s => decide (e ∈ s.episodes))) = 1) ∧
    (eps.length ≤ 13 → (organizeIntoSeasons aid eps).length = 1) := by
  have hlen : (organizeIntoSeasons aid eps).length = (eps.length + 12) / 13 :=
    organizeAux_length aid eps.length eps 1 (Nat.le_refl _)
  have hflat : ((organizeIntoSeasons aid eps).map (fun s => s.episodes)).flatten = eps :=
    organizeAux_flatten aid eps.length eps 1 (Nat.le_refl _)
  refine ⟨?_, ?_, hflat, ?_, ?_⟩
  · rw [hlen, show eps.length + 13 - 1 = eps.length + 12 by omega]
  · intro i hi
    have hg := organizeAux_getElem aid eps.length eps 1 i (Nat.le_refl _) hi
    rw [show 1 + i = i + 1 from Nat.add_comm 1 i] at hg
    exact hg
  · intro hnodup e he
    have hq := countP_of_count_flatten_one e
      ((organizeIntoSeasons aid eps).map (fun s => s.episodes))
      (by rw [hflat]; exact List.count_eq_one_of_mem hnodup he)
    rw [List.countP_map] at hq
    exact hq
  · intro h13
    rw [hlen]
    cases eps with
    | nil => exact absurd rfl h
    | cons e rest =>
      rw [List.length_cons] at h13 ⊢
      exact Nat.div_eq_of_lt_le (by omega) (by omega)

/-- A concrete 16-episode list. -/
def epList16 : List Episode :=
  (List.range 16).map (fun i => { id := "", animeId := "an", number := i + 1 })

/-- C5 witness: the theorem applied to a concrete 16-episode list, giving two
seasons of 13 and 3 episodes. -/
theorem organizeIntoSeasons_spec_witness :
    (epList16 ≠ [] ) ∧
    ((organizeIntoSeasons "an" epList16).length = (epList16.length + 13 - 1) / 13 ∧
    (∀ i, i < (organizeIntoSeasons "an" epList16).length →
      (organizeIntoSeasons "an" epList16)[i]? = some
        { animeId := "an", seasonNumber := i + 1,
          episodeCount := ((epList16.drop (i * 13)).take 13).length,
          episodes := (epList16.drop (i * 13)).take 13 }) ∧
    ((organizeIntoSeasons "an" epList16).map (fun s => s.episodes)).flatten = epList16 ∧
    (epList16.Nodup → ∀ e ∈ epList16,
      ((organizeIntoSeasons "an" epList16).countP (fun s => decide (e ∈ s.episodes))) = 1) ∧
    (epList16.length ≤ 13 → (organizeIntoSeasons "an" epList16).length = 1)) :=
  ⟨by decide, organizeIntoSeasons_spec "an" epList16 (by decide)⟩

/-! ## Torrent data model (`src/models/Torrent.ts`) -/

/-- Enum `TorrentQuality`. -/
inductive TorrentQuality
  | SD_480p
  | HD_720p
  | FULL_HD_1080p
  | UHD_2160p
  | UHD_4K
  | RAW
  | UNKNOWN
deriving DecidableEq

/-- Enum `TorrentCodec`. -/
inductive TorrentCodec
  | H264
  | H265
  | HEVC
  | AV1
  | VP9
  | XVID
  | UNKNOWN
deriving DecidableEq

/-- Enum `TorrentLanguage`. -/
inductive TorrentLanguage
  | JAPANESE
  | ENGLISH
  | PORTUGUESE_BR
  | SPANISH
  | FRENCH
  | GERMAN
  | ITALIAN
  | RUSSIAN
  | CHINESE
  | KOREAN
  | MULTI
  | UNKNOWN
deriving DecidableEq

/-- Enum `TorrentReleaseType`. -/
inductive TorrentReleaseType
  | EPISODE
  | BATCH
  | SEASON
  | COMPLETE
  | MOVIE
  | OVA
  | SPECIAL
deriving DecidableEq

/-- Interface `TorrentMetadata`. -/
structure TorrentMetadata where
  quality : TorrentQuality := TorrentQuality.UNKNOWN
  codec : TorrentCodec := TorrentCodec.UNKNOWN
  audioLanguages : List TorrentLanguage := []
  subtitleLanguages : List TorrentLanguage := []
  releaseType : TorrentReleaseType := TorrentReleaseType.EPISODE
  releaseGroup : Option String := none
  isDual : Bool := false
  isMultiSub : Bool := false
  isBatch : Bool := false
  hasHardSubs : Bool := false
deriving DecidableEq

/-- Interface `Torrent`, restricted to the fields that deduplication and the
stats query read. -/
structure Torrent where
  id : String := ""
  title : String := ""
  infoHash : String := ""
  seeders : Nat := 0
  leechers : Nat := 0
  sizeBytes : Nat := 0
  metadata : TorrentMetadata := {}
deriving DecidableEq

/-! ## Torrent deduplication (`NyaaService.deduplicateTorrents`) -/

/-- ASCII lower-case letter or digit, the character class `[a-z0-9]`. -/
def isLowerAlnum (c : Char) : Bool :=
  (97 ≤ c.toNat && c.toNat ≤ 122) || (48 ≤ c.toNat && c.toNat ≤ 57)

/-- Collapse every run of spaces to a single space; the flag records whether
the previous emitted character was a space. -/
def collapseSpaceRuns : Bool → List Char → List Char
  | _, [] => []
  | prevSpace, c :: rest =>
    if c = ' ' then
      if prevSpace then collapseSpaceRuns true rest
      else ' ' :: collapseSpaceRuns true rest
    else c :: collapseSpaceRuns false rest

/-- Remove leading and trailing spaces, the JS `trim` (every whitespace
character here is already a plain space). -/
def trimSpaces (l : List Char) : List Char :=
  ((l.dropWhile (fun c => c = ' ')).reverse.dropWhile (fun c => c = ' ')).reverse

/-- The local `normalize` of `deduplicateTorrents`: lower-case, replace each
run of characters outside `[a-z0-9]` by one space, trim, collapse whitespace
runs. Replacing a run by one space is modelled as replacing every such
character by a space and collapsing the resulting space runs. -/
def normalizeTitle (s : String) : String :=
  let lowered := s.data.map Char.toLower
  let spaced := lowered.map (fun c => if isLowerAlnum c then c else ' ')
  String.mk (collapseSpaceRuns false (trimSpaces (collapseSpaceRuns false spaced)))

/-- The dedup key: `t.infoHash || normalize(t.title)` — the info hash when
non-empty (truthy), else the normalized title. -/
def dedupKey (t : Torrent) : String :=
  if t.infoHash = "" then normalizeTitle t.title else t.infoHash

/-- One step of the duplicate map: JS `Map.get`/`set` keeping the entry with
the strictly higher seeders count on key collision. -/
def upsertTorrent : List (String × Torrent) → String → Torrent → List (String × Torrent)
  | [], key, t => [(key, t)]
  | (k, existing) :: rest, key, t =>
    if k = key then
      (if t.seeders > existing.seeders then (k, t) else (k, existing)) :: rest
    else (k, existing) :: upsertTorrent rest key t

/-- The loop of `deduplicateTorrents` building the duplicate map. -/
def dedupFold (torrents : List Torrent) : List (String × Torrent) :=
  torrents.foldl (fun m t => upsertTorrent m (dedupKey t) t) []

/-- Comparator `(a, b) => b.seeders - a.seeders`: descending by seeders. -/
def seedersDescLeB (a b : Torrent) : Bool := decide (b.seeders ≤ a.seeders)

/-- Method `deduplicateTorrents`: collapse duplicates by key keeping the
max-seeded candidate, then sort the surviving values descending by seeders. -/
def deduplicateTorrents (torrents : List Torrent) : List Torrent :=
  stableSort seedersDescLeB ((dedupFold torrents).map Prod.snd)

theorem mem_upsertTorrent :
    ∀ (m : List (String × Torrent)) (key : String) (t : Torrent) (p : String × Torrent),
      p ∈ upsertTorrent m key t → p ∈ m ∨ (p.1 = key ∧ p.2 = t) := by
  intro m
  induction m with
  | nil =>
    intro key t p hp
    rw [upsertTorrent] at hp
    rcases List.mem_singleton.mp hp with rfl
    exact Or.inr ⟨rfl, rfl⟩
  | cons e rest ih =>
    intro key t p hp
    obtain ⟨k, existing⟩ := e
    rw [upsertTorrent] at hp
    by_cases hk : k = key
    · rw [if_pos hk] at hp
      rcases List.mem_cons.mp hp with hp | hp
      · by_cases hs : t.seeders > existing.seeders
        · rw [if_pos hs] at hp
          exact Or.inr (by rw [hp]; exact ⟨hk, rfl⟩)
        · rw [if_neg hs] at hp
          exact Or.inl (by rw [hp]; exact List.mem_cons_self _ _)
      · exact Or.inl (List.mem_cons.mpr (Or.inr hp))
    · rw [if_neg hk] at hp
      rcases List.mem_cons.mp hp with hp | hp
      · exact Or.inl (by rw [hp]; exact List.mem_cons_self _ _)
      · rcases ih key t p hp with hp | hp
        · exact Or.inl (List.mem_cons.mpr (Or.inr hp))
        · exact Or.inr hp

theorem upsertTorrent_covers :
    ∀ (m : List (String × Torrent)) (key : String) (t : Torrent),
      ∃ v, (key, v) ∈ upsertTorrent m key t ∧ t.seeders ≤ v.seeders := by
  intro m
  induction m with
  | nil =>
    intro key t
    exact ⟨t, by rw [upsertTorrent]; exact List.mem_singleton_self _, Nat.le_refl _⟩
  | cons e rest ih =>
    intro key t
    obtain ⟨k, existing⟩ := e
    rw [upsertTorrent]
    by_cases hk : k = key
    · rw [if_pos hk]
      by_cases hs : t.seeders > existing.seeders
      · rw [if_pos hs]
        exact ⟨t, by rw [hk]; exact List.mem_cons_self _ _, Nat.le_refl _⟩
      · rw [if_neg hs]
        exact ⟨existing, by rw [hk]; exact List.mem_cons_self _ _, Nat.le_of_not_lt hs⟩
    · rw [if_neg hk]
      obtain ⟨v, hv, hs⟩ := ih key t
      exact ⟨v, List.mem_cons.mpr (Or.inr hv), hs⟩

theorem upsertTorrent_preserves :
    ∀ (m : List (String × Torrent)) (key : String) (t : Torrent) (k : String) (v : Torrent),
      (k, v) ∈ m → ∃ w, (k, w) ∈ upsertTorrent m key t ∧ v.seeders ≤ w.seeders := by
  intro m
  induction m with
  | nil => intro key t k v hv; exact absurd hv (List.not_mem_nil _)
  | cons e rest ih =>
    intro key t k v hv
    obtain ⟨k0, existing⟩ := e
    rw [upsertTorrent]
    by_cases hk : k0 = key
    · rw [if_pos hk]
      rcases List.mem_cons.mp hv with hv | hv
      · injection hv with hv1 hv2
        rw [hv1, hv2]
        by_cases hs : t.seeders > existing.seeders
        · rw [if_pos hs]
          exact ⟨t, List.mem_cons_self _ _, Nat.le_of_lt hs⟩
        · rw [if_neg hs]
          exact ⟨existing, List.mem_cons_self _ _, Nat.le_refl _⟩
      · refine ⟨v, List.mem_cons.mpr (Or.inr hv), Nat.le_refl _⟩
    · rw [if_neg hk]
      rcases List.mem_cons.mp hv with hv | hv
      · exact ⟨v, List.mem_cons.mpr (Or.inl hv), Nat.le_refl _⟩
      · obtain ⟨w, hw, hs⟩ := ih key t k v hv
        exact ⟨w, List.mem_cons.mpr (Or.inr hw), hs⟩

theorem upsertTorrent_keys :
    ∀ (m : List (String × Torrent)) (key : String) (t : Torrent),
      (upsertTorrent m key t).map Prod.fst =
        if key ∈ m.map Prod.fst then m.map Prod.fst else m.map Prod.fst ++ [key] := by
  intro m
  induction m with
  | nil => intro key t; rw [upsertTorrent]; simp
  | cons e rest ih =>
    intro key t
    obtain ⟨k0, existing⟩ := e
    rw [upsertTorrent]
    by_cases hk : k0 = key
    · rw [if_pos hk]
      by_cases hs : t.seeders > existing.seeders
      · rw [if_pos hs]
        simp [hk.symm]
      · rw [if_neg hs]
        simp [hk.symm]
    · rw [if_neg hk]
      have hne : key ≠ k0 := fun h => hk h.symm
      simp only [List.map_cons, List.mem_cons, hne, false_or]
      rw [ih key t]
      by_cases hmem : key ∈ rest.map Prod.fst
      · simp [hmem]
      · simp [hmem]

theorem upsertTorrent_keys_nodup {m : List (String × Torrent)}
    (h : (m.map Prod.fst).Nodup) (key : String) (t : Torrent) :
    ((upsertTorrent m key t).map Prod.fst).Nodup := by
  rw [upsertTorrent_keys]
  by_cases hmem : key ∈ m.map Prod.fst
  · rw [if_pos hmem]; exact h
  · rw [if_neg hmem]
    refine List.Nodup.append h (List.nodup_singleton key) ?_
    intro x hx hx2
    exact hmem ((List.mem_singleton.mp hx2) ▸ hx)

theorem upsertTorrent_wellKeyed {m : List (String × Torrent)}
    (h : ∀ p ∈ m, p.1 = dedupKey p.2) (t : Torrent) :
    ∀ p ∈ upsertTorrent m (dedupKey t) t, p.1 = dedupKey p.2 := by
  intro p hp
  rcases mem_upsertTorrent m (dedupKey t) t p hp with hp | hp
  · exact h p hp
  · rw [hp.1, hp.2]

theorem dedupFoldAux_mem :
    ∀ (ts : List Torrent) (m : List (String × Torrent)) (p : String × Torrent),
      p ∈ ts.foldl (fun m t => upsertTorrent m (dedupKey t) t) m →
        p ∈ m ∨ p.2 ∈ ts := by
  intro ts
  induction ts with
  | nil => intro m p hp; exact Or.inl hp
  | cons t0 ts ih =>
    intro m p hp
    rw [List.foldl_cons] at hp
    rcases ih _ p hp with hp | hp
    · rcases mem_upsertTorrent m (dedupKey t0) t0 p hp with hp | hp
      · exact Or.inl hp
      · exact Or.inr (List.mem_cons.mpr (Or.inl hp.2))
    · exact Or.inr (List.mem_cons.mpr (Or.inr hp))

theorem dedupFoldAux_preserves :
    ∀ (ts : List Torrent) (m : List (String × Torrent)) (k : String) (v : Torrent),
      (k, v) ∈ m →
      ∃ w, (k, w) ∈ ts.foldl (fun m t => upsertTorrent m (dedupKey t) t) m ∧
        v.seeders ≤ w.seeders := by
  intro ts
  induction ts with
  | nil => intro m k v hv; exact ⟨v, hv, Nat.le_refl _⟩
  | cons t0 ts ih =>
    intro m k v hv
    rw [List.foldl_cons]
    obtain ⟨w1, hw1, hs1⟩ := upsertTorrent_preserves m (dedupKey t0) t0 k v hv
    obtain ⟨w, hw, hs⟩ := ih _ k w1 hw1
    exact ⟨w, hw, Nat.le_trans hs1 hs⟩

theorem dedupFoldAux_covers :
    ∀ (ts : List Torrent) (m : List (String × Torrent)) (t : Torrent), t ∈ ts →
      ∃ v, (dedupKey t, v) ∈ ts.foldl (fun m t => upsertTorrent m (dedupKey t) t) m ∧
        t.seeders ≤ v.seeders := by
  intro ts
  induction ts with
  | nil => intro m t ht; exact absurd ht (List.not_mem_nil _)
  | cons t0 ts ih =>
    intro m t ht
    rw [List.foldl_cons]
    rcases List.mem_cons.mp ht with rfl | ht
    · obtain ⟨v0, hv0, hs0⟩ := upsertTorrent_covers m (dedupKey t) t
      obtain ⟨w, hw, hs⟩ := dedupFoldAux_preserves ts _ (dedupKey t) v0 hv0
      exact ⟨w, hw, Nat.le_trans hs0 hs⟩
    · exact ih _ t ht

theorem dedupFoldAux_keys_nodup :
    ∀ (ts : List Torrent) (m : List (String × Torrent)),
      (m.map Prod.fst).Nodup →
      ((ts.foldl (fun m t => upsertTorrent m (dedupKey t) t) m).map Prod.fst).Nodup := by
  intro ts
  induction ts with
  | nil => intro m h; exact h
  | cons t0 ts ih =>
    intro m h
    rw [List.foldl_cons]
    exact ih _ (upsertTorrent_keys_nodup h (dedupKey t0) t0)

theorem dedupFoldAux_wellKeyed :
    ∀ (ts : List Torrent) (m : List (String × Torrent)),
      (∀ p ∈ m, p.1 = dedupKey p.2) →
      ∀ p ∈ ts.foldl (fun m t => upsertTorrent m (dedupKey t) t) m, p.1 = dedupKey p.2 := by
  intro ts
  induction ts with
  | nil => intro m h p hp; exact h p hp
  | cons t0 ts ih =>
    intro m h p hp
    rw [List.foldl_cons] at hp
    exact ih _ (upsertTorrent_wellKeyed h t0) p hp

/-- C6: deduplication groups the candidates by key — `infoHash` when
non-empty, else the normalized title; every surviving candidate is one of the
inputs and carries the maximum seeders count among all inputs with its key;
every input key survives; keys are pairwise distinct in the output; and the
output is sorted descending by seeders. -/
theorem deduplicateTorrents_spec (ts : List Torrent) :
    (∀ v ∈ deduplicateTorrents ts, v ∈ ts) ∧
    (∀ t ∈ ts, ∃ v ∈ deduplicateTorrents ts,
      dedupKey v = dedupKey t ∧ t.seeders ≤ v.seeders) ∧
    ((deduplicateTorrents ts).map dedupKey).Nodup ∧
    (deduplicateTorrents ts).Pairwise (fun a b => b.seeders ≤ a.seeders) := by
  have hwellKeyed : ∀ p ∈ dedupFold ts, p.1 = dedupKey p.2 :=
    dedupFoldAux_wellKeyed ts [] (fun p hp => absurd hp (List.not_mem_nil _))
  refine ⟨?_, ?_, ?_, ?_⟩
  · intro v hv
    rw [deduplicateTorrents, mem_stableSort] at hv
    obtain ⟨p, hp, hpv⟩ := List.mem_map.mp hv
    rcases dedupFoldAux_mem ts [] p hp with hmem | hmem
    · exact absurd hmem (List.not_mem_nil _)
    · rw [← hpv]
      exact hmem
  · intro t ht
    obtain ⟨v, hv, hs⟩ := dedupFoldAux_covers ts [] t ht
    refine ⟨v, ?_, ?_, hs⟩
    · rw [deduplicateTorrents, mem_stableSort]
      exact List.mem_map.mpr ⟨(dedupKey t, v), hv, rfl⟩
    · exact (hwellKeyed (dedupKey t, v) hv).symm
  · have hperm : List.Perm ((deduplicateTorrents ts).map dedupKey)
        (((dedupFold ts).map Prod.snd).map dedupKey) :=
      (stableSort_perm seedersDescLeB ((dedupFold ts).map Prod.snd)).map dedupKey
    rw [hperm.nodup_iff, List.map_map]
    have hcongr : (dedupFold ts).map (dedupKey ∘ Prod.snd) = (dedupFold ts).map Prod.fst := by
      apply List.map_congr_left
      intro p hp
      exact (hwellKeyed p hp).symm
    rw [hcongr]
    exact dedupFoldAux_keys_nodup ts [] List.nodup_nil
  · have hsorted := sorted_stableSort seedersDescLeB
      (fun a b h => by
        simp only [seedersDescLeB, decide_eq_false_iff_not, Nat.not_le] at h
        simp only [seedersDescLeB, decide_eq_true_eq]
        exact Nat.le_of_lt h)
      (fun a b c h1 h2 => by
        simp only [seedersDescLeB, decide_eq_true_eq] at h1 h2 ⊢
        exact Nat.le_trans h2 h1)
      ((dedupFold ts).map Prod.snd)
    exact hsorted.imp (fun h => of_decide_eq_true h)

/-- Candidate with seeders 10. -/
def tSeed10 : Torrent :=
  { id := "x", title := "Show [1080p]", infoHash := "abcdef", seeders := 10 }

/-- Candidate with the same infoHash and seeders 50. -/
def tSeed50 : Torrent :=
  { id := "y", title := "Show (1080p)", infoHash := "abcdef", seeders := 50 }

/-- C6 witness: applied at two candidates with identical infoHash and seeders
10 vs 50: the survivor list is exactly the seeders-50 candidate. -/
theorem deduplicateTorrents_spec_witness :
    deduplicateTorrents [tSeed10, tSeed50] = [tSeed50] ∧
    (∀ v ∈ deduplicateTorrents [tSeed10, tSeed50], v ∈ [tSeed10, tSeed50]) ∧
    (∀ t ∈ [tSeed10, tSeed50], ∃ v ∈ deduplicateTorrents [tSeed10, tSeed50],
      dedupKey v = dedupKey t ∧ t.seeders ≤ v.seeders) ∧
    ((deduplicateTorrents [tSeed10, tSeed50]).map dedupKey).Nodup ∧
    (deduplicateTorrents [tSeed10, tSeed50]).Pairwise (fun a b => b.seeders ≤ a.seeders) :=
  ⟨by decide, (deduplicateTorrents_spec [tSeed10, tSeed50]).1,
    (deduplicateTorrents_spec [tSeed10, tSeed50]).2.1,
    (deduplicateTorrents_spec [tSeed10, tSeed50]).2.2.1,
    (deduplicateTorrents_spec [tSeed10, tSeed50]).2.2.2⟩

/-! ## Language extraction (`NyaaService.extractAudioLanguages`,
`NyaaService.extractSubtitleLanguages`) -/

/-- JS `String.prototype.includes`: substring containment. -/
def containsStr (hay needle : String) : Bool := decide (needle.data <:+: hay.data)

/-- JS `toLowerCase`, character-wise ASCII lowering. -/
def lowerStr (s : String) : String := String.mk (s.data.map Char.toLower)

/-- Method `extractAudioLanguages`: dual/multi audio means Japanese plus
English; otherwise Japanese and English markers are tested independently and
pushed in that order; an empty result defaults to Japanese. -/
def extractAudioLanguages (title : String) : List TorrentLanguage :=
  let titleLower := lowerStr title
  let languages : List TorrentLanguage :=
    if containsStr titleLower "dual audio" || containsStr titleLower "multi audio" then
      [TorrentLanguage.JAPANESE, TorrentLanguage.ENGLISH]
    else
      (if containsStr titleLower "japanese" || containsStr titleLower "jpn" ||
          containsStr titleLower "jap" then [TorrentLanguage.JAPANESE] else []) ++
      (if containsStr titleLower "english" || containsStr titleLower "eng" ||
          containsStr titleLower "dub" then [TorrentLanguage.ENGLISH] else [])
  if languages.length > 0 then languages else [TorrentLanguage.JAPANESE]

/-- The `langMap` table of `extractSubtitleLanguages`, in `Object.entries`
insertion order, each entry already split on the `|`. -/
def subtitleLangTable : List (List String × TorrentLanguage) :=
  [(["eng", "english"], TorrentLanguage.ENGLISH),
   (["pt-br", "portuguese"], TorrentLanguage.PORTUGUESE_BR),
   (["esp", "spanish"], TorrentLanguage.SPANISH),
   (["fre", "french"], TorrentLanguage.FRENCH),
   (["ger", "german"], TorrentLanguage.GERMAN),
   (["ita", "italian"], TorrentLanguage.ITALIAN),
   (["rus", "russian"], TorrentLanguage.RUSSIAN),
   (["chi", "chinese"], TorrentLanguage.CHINESE),
   (["kor", "korean"], TorrentLanguage.KOREAN)]

/-- Method `extractSubtitleLanguages`: multi-sub short-circuits to MULTI;
otherwise every table entry whose patterns match contributes its language; an
empty result defaults to English. -/
def extractSubtitleLanguages (title : String) : List TorrentLanguage :=
  let titleLower := lowerStr title
  if containsStr titleLower "multi" &&
      (containsStr titleLower "sub" || containsStr titleLower "subtitle") then
    [TorrentLanguage.MULTI]
  else
    let languages := subtitleLangTable.foldl
      (fun acc p =>
        if p.1.any (fun pat => containsStr titleLower pat) then acc ++ [p.2] else acc) []
    if languages.length > 0 then languages else [TorrentLanguage.ENGLISH]

theorem foldl_filter_append {α β : Type} (q : α → Bool) (f : α → β) :
    ∀ (l : List α) (acc : List β),
      l.foldl (fun acc p => if q p then acc ++ [f p] else acc) acc =
        acc ++ (l.filter q).map f := by
  intro l
  induction l with
  | nil => intro acc; simp
  | cons a as ih =>
    intro acc
    rw [List.foldl_cons]
    by_cases hq : q a = true
    · rw [if_pos hq, ih, List.filter_cons_of_pos hq]
      simp
    · rw [if_neg hq, ih, List.filter_cons_of_neg (by simpa using hq)]

/-- C7: both extracted language lists are always non-empty; a dual/multi-audio
marker yields exactly Japanese and English audio; otherwise the Japanese and
English audio markers are tested independently, their matches unioned in that
order, defaulting to Japanese when none matches; a multi-sub marker
short-circuits subtitles to MULTI; otherwise the subtitle languages are the
fixed table's matches in table order, defaulting to English when none
matches. -/
theorem extractLanguages_spec (title : String) :
    extractAudioLanguages title ≠ [] ∧
    extractSubtitleLanguages title ≠ [] ∧
    ((containsStr (lowerStr title) "dual audio" ||
        containsStr (lowerStr title) "multi audio") = true →
      extractAudioLanguages title = [TorrentLanguage.JAPANESE, TorrentLanguage.ENGLISH]) ∧
    ((containsStr (lowerStr title) "dual audio" ||
        containsStr (lowerStr title) "multi audio") = false →
      extractAudioLanguages title =
        if containsStr (lowerStr title) "japanese" || containsStr (lowerStr title) "jpn" ||
            containsStr (lowerStr title) "jap" then
          (if containsStr (lowerStr title) "english" || containsStr (lowerStr title) "eng" ||
              containsStr (lowerStr title) "dub" then
            [TorrentLanguage.JAPANESE, TorrentLanguage.ENGLISH]
          else [TorrentLanguage.JAPANESE])
        else
          (if containsStr (lowerStr title) "english" || containsStr (lowerStr title) "eng" ||
              containsStr (lowerStr title) "dub" then
            [TorrentLanguage.ENGLISH]
          else [TorrentLanguage.JAPANESE])) ∧
    ((containsStr (lowerStr title) "multi" &&
        (containsStr (lowerStr title) "sub" || containsStr (lowerStr title) "subtitle")) = true →
      extractSubtitleLanguages title = [TorrentLanguage.MULTI]) ∧
    ((containsStr (lowerStr title) "multi" &&
        (containsStr (lowerStr title) "sub" || containsStr (lowerStr title) "subtitle")) = false →
      extractSubtitleLanguages title =
        (if ((subtitleLangTable.filter
            (fun p => p.1.any (fun pat => containsStr (lowerStr title) pat))).map Prod.snd) = []
         then [TorrentLanguage.ENGLISH]
         else (subtitleLangTable.filter
            (fun p => p.1.any (fun pat => containsStr (lowerStr title) pat))).map Prod.snd)) := by
  have haudio : extractAudioLanguages title ≠ [] := by
    rw [extractAudioLanguages]
    cases hdual : (containsStr (lowerStr title) "dual audio" ||
        containsStr (lowerStr title) "multi audio") with
    | true => simp [hdual]
    | false =>
      simp only [hdual, Bool.false_eq_true, if_false]
      cases hja : (containsStr (lowerStr title) "japanese" || containsStr (lowerStr title) "jpn" ||
          containsStr (lowerStr title) "jap") <;>
        cases hen : (containsStr (lowerStr title) "english" || containsStr (lowerStr title) "eng" ||
          containsStr (lowerStr title) "dub") <;>
        simp [hja, hen]
  refine ⟨haudio, ?_, ?_, ?_, ?_, ?_⟩
  · rw [extractSubtitleLanguages]
    cases hms : (containsStr (lowerStr title) "multi" &&
        (containsStr (lowerStr title) "sub" || containsStr (lowerStr title) "subtitle")) with
    | true => simp [hms]
    | false =>
      simp only [hms, Bool.false_eq_true, if_false]
      rw [foldl_filter_append]
      simp only [List.nil_append]
      cases hm : (subtitleLangTable.filter
          (fun p => p.1.any (fun pat => containsStr (lowerStr title) pat))).map Prod.snd with
      | nil => simp [hm]
      | cons x xs => simp [hm]
  · intro hdual
    rw [extractAudioLanguages]
    simp [hdual]
  · intro hdual
    rw [extractAudioLanguages]
    simp only [hdual, Bool.false_eq_true, if_false]
    cases hja : (containsStr (lowerStr title) "japanese" || containsStr (lowerStr title) "jpn" ||
        containsStr (lowerStr title) "jap") <;>
      cases hen : (containsStr (lowerStr title) "english" || containsStr (lowerStr title) "eng" ||
        containsStr (lowerStr title) "dub") <;>
      simp [hja, hen]
  · intro hms
    rw [extractSubtitleLanguages]
    simp [hms]
  · intro hms
    rw [extractSubtitleLanguages]
    simp only [hms, Bool.false_eq_true, if_false]
    rw [foldl_filter_append]
    simp only [List.nil_append]
    cases hm : (subtitleLangTable.filter
        (fun p => p.1.any (fun pat => containsStr (lowerStr title) pat))).map Prod.snd with
    | nil => simp [hm]
    | cons x xs => simp [hm]

/-- C7 witness: the theorem applied at a concrete dual-audio multi-sub title
and at a plain title that matches no marker. -/
theorem extractLanguages_spec_witness :
    ((containsStr (lowerStr "Show Dual Audio Multi Sub") "dual audio" ||
        containsStr (lowerStr "Show Dual Audio Multi Sub") "multi audio") = true) ∧
    extractAudioLanguages "Show Dual Audio Multi Sub" =
      [TorrentLanguage.JAPANESE, TorrentLanguage.ENGLISH] ∧
    ((containsStr (lowerStr "Show Dual Audio Multi Sub") "multi" &&
        (containsStr (lowerStr "Show Dual Audio Multi Sub") "sub" ||
          containsStr (lowerStr "Show Dual Audio Multi Sub") "subtitle")) = true) ∧
    extractSubtitleLanguages "Show Dual Audio Multi Sub" = [TorrentLanguage.MULTI] ∧
    extractAudioLanguages "Plain Title 1080p" ≠ [] ∧
    extractSubtitleLanguages "Plain Title 1080p" ≠ [] :=
  ⟨by decide, (extractLanguages_spec "Show Dual Audio Multi Sub").2.2.1 (by decide),
    by decide, (extractLanguages_spec "Show Dual Audio Multi Sub").2.2.2.2.1 (by decide),
    (extractLanguages_spec "Plain Title 1080p").1,
    (extractLanguages_spec "Plain Title 1080p").2.1⟩

/-! ## Size parsing (`NyaaService.parseSizeToBytes`) -/

/-- The regex character class `[\d.]`. -/
def isDigitOrDot (c : Char) : Bool := c.isDigit || c == '.'

/-- The regex class `\s` (the whitespace characters that can occur here),
by character code: space, tab, line feed, carriage return. -/
def isWsChar (c : Char) : Bool :=
  c.toNat = 32 || c.toNat = 9 || c.toNat = 10 || c.toNat = 13

/-- Match of `^([\d.]+)\s*([A-Za-z]+)$`. The three character classes are
disjoint, so greedy matching is exact: the numeric token is the maximal
leading `[\d.]` run, then optional whitespace, then letters to the end.
Returns the numeric and unit tokens. -/
def matchSizeRegex (s : List Char) : Option (List Char × List Char) :=
  let num := s.takeWhile isDigitOrDot
  let rest := s.drop num.length
  let unit := rest.dropWhile isWsChar
  if num ≠ [] ∧ unit ≠ [] ∧ unit.all Char.isAlpha ∧
      rest.takeWhile isWsChar ++ unit = rest then
    some (num, unit)
  else none

/-- Decimal digits to a natural number. -/
def digitsToNat (ds : List Char) : Nat :=
  ds.foldl (fun acc c => acc * 10 + (c.toNat - 48)) 0

/-- JS `parseFloat` restricted to a `[\d.]+` token: `none` is `NaN` (neither
integer nor fraction digits); otherwise the exact decimal value
`mantissa / 10 ^ scale`, parsing stopping at the second dot. -/
def parseFloatDigits (cs : List Char) : Option (Nat × Nat) :=
  let ip := cs.takeWhile Char.isDigit
  let rest := cs.drop ip.length
  let fp := match rest with
    | '.' :: r => r.takeWhile Char.isDigit
    | _ => []
  if ip = [] ∧ fp = [] then none
  else some (digitsToNat (ip ++ fp), fp.length)

/-- The `units` record of `parseSizeToBytes` with its exact-case keys; an
unknown unit falls back to multiplier 1 (`units[unit] ?? 1`). -/
def unitMultiplier (u : List Char) : Nat :=
  if u = "B".data then 1
  else if u = "KB".data then 1024
  else if u = "MB".data then 1024 ^ 2
  else if u = "GB".data then 1024 ^ 3
  else if u = "TB".data then 1024 ^ 4
  else if u = "KiB".data then 1024
  else if u = "MiB".data then 1024 ^ 2
  else if u = "GiB".data then 1024 ^ 3
  else if u = "TiB".data then 1024 ^ 4
  else 1

/-- `Math.round (num / den)` for non-negative `num / den` with `den > 0`:
`floor(x + 1/2)` computed in integers. -/
def jsRoundDiv (num den : Nat) : Nat := (2 * num + den) / (2 * den)

/-- Method `parseSizeToBytes`; `none` models a `NaN` result (reachable when
the numeric token has no digits, only dots), `some 0` the no-match fallback.
Exact rational arithmetic stands in for IEEE doubles. -/
def parseSizeToBytes (sizeStr : String) : Option Nat :=
  match matchSizeRegex sizeStr.data with
  | none => some 0
  | some (num, unit) =>
    match parseFloatDigits num with
    | none => none
    | some (mantissa, scale) =>
      some (jsRoundDiv (mantissa * unitMultiplier unit) (10 ^ scale))

/-- The spec's unit table. -/
def sizeUnits : List (String × Nat) :=
  [("B", 1), ("KB", 1024), ("MB", 1024 ^ 2), ("GB", 1024 ^ 3), ("TB", 1024 ^ 4),
   ("KiB", 1024), ("MiB", 1024 ^ 2), ("GiB", 1024 ^ 3), ("TiB", 1024 ^ 4)]

/-- C8 counterexample: a string whose unit is not in the table parses to its
bare number (multiplier 1 fallback) instead of the 0 the claim assigns to
every unparseable string. -/
theorem parseSizeToBytes_unknown_unit_counterexample :
    parseSizeToBytes "5 XYZ" = some 5 ∧
    (∀ mult : Nat, ("XYZ", mult) ∉ sizeUnits) ∧
    parseSizeToBytes "5 XYZ" ≠ some 0 := by
  refine ⟨by decide, ?_, by decide⟩
  intro mult hmem
  have hall : ∀ p ∈ sizeUnits, p.1 ≠ "XYZ" := by decide
  exact hall ("XYZ", mult) hmem rfl

theorem takeWhile_append_all {α : Type} (p : α → Bool) :
    ∀ (l₁ l₂ : List α), l₁.all p = true →
      (l₁ ++ l₂).takeWhile p = l₁ ++ l₂.takeWhile p := by
  intro l₁
  induction l₁ with
  | nil => intro l₂ _; rfl
  | cons a as ih =>
    intro l₂ h
    rw [List.all_cons, Bool.and_eq_true] at h
    rw [List.cons_append, List.takeWhile_cons_of_pos h.1, ih l₂ h.2, List.cons_append]

theorem takeWhile_all_eq {α : Type} (p : α → Bool) (l : List α) (h : l.all p = true) :
    l.takeWhile p = l := by
  have := takeWhile_append_all p l [] h
  simpa using this

theorem all_digit_digitOrDot {ds : List Char} (h : ds.all Char.isDigit = true) :
    ds.all isDigitOrDot = true := by
  rw [List.all_eq_true] at h ⊢
  intro c hc
  rw [isDigitOrDot]
  simp [h c hc]

theorem sizeUnits_facts : ∀ p ∈ sizeUnits,
    p.1.data ≠ [] ∧ p.1.data.all Char.isAlpha = true ∧
    p.1.data.dropWhile isWsChar = p.1.data ∧
    p.1.data.takeWhile isWsChar = [] ∧
    unitMultiplier p.1.data = p.2 := by decide

theorem jsRoundDiv_den_one (x : Nat) : jsRoundDiv x 1 = x := by
  rw [jsRoundDiv]
  omega

theorem matchSizeRegex_integer (ds : List Char) (hne : ds ≠ [])
    (hdig : ds.all Char.isDigit = true) (u : String) (mult : Nat)
    (hu : (u, mult) ∈ sizeUnits) :
    matchSizeRegex (ds ++ ' ' :: u.data) = some (ds, u.data) := by
  obtain ⟨hune, halpha, hdrop, htake, hmult⟩ := sizeUnits_facts (u, mult) hu
  have hnum : (ds ++ ' ' :: u.data).takeWhile isDigitOrDot = ds := by
    rw [takeWhile_append_all isDigitOrDot ds _ (all_digit_digitOrDot hdig)]
    rw [List.takeWhile_cons_of_neg (by decide)]
    simp
  rw [matchSizeRegex]
  simp only [hnum, List.drop_left]
  rw [List.dropWhile_cons_of_pos (by decide), hdrop,
    List.takeWhile_cons_of_pos (by decide), htake]
  rw [if_pos ⟨hne, hune, halpha, rfl⟩]

theorem parseFloatDigits_integer (ds : List Char) (hne : ds ≠ [])
    (hdig : ds.all Char.isDigit = true) :
    parseFloatDigits ds = some (digitsToNat ds, 0) := by
  have hip : ds.takeWhile Char.isDigit = ds := takeWhile_all_eq _ ds hdig
  rw [parseFloatDigits]
  simp only [hip, List.drop_length]
  rw [if_neg (by intro h; exact hne h.1)]
  simp

/-- C8 (amended): a string that does not match `<number><spaces><letters>`
parses to 0 bytes; a digit string followed by a known unit parses exactly to
the number times the unit's multiplier; a decimal `int.frac` number followed
by a known unit parses to the rounded product; unknown letter units (see the
counterexample) fall back to multiplier 1 rather than 0. -/
theorem parseSizeToBytes_spec :
    (∀ s : String, matchSizeRegex s.data = none → parseSizeToBytes s = some 0) ∧
    (∀ ds : List Char, ds ≠ [] → ds.all Char.isDigit = true →
      ∀ (u : String) (mult : Nat), (u, mult) ∈ sizeUnits →
        parseSizeToBytes (String.mk (ds ++ ' ' :: u.data)) =
          some (digitsToNat ds * mult)) ∧
    (∀ ds fs : List Char, ds ≠ [] →
      ds.all Char.isDigit = true → fs.all Char.isDigit = true →
      ∀ (u : String) (mult : Nat), (u, mult) ∈ sizeUnits →
        parseSizeToBytes (String.mk (ds ++ '.' :: fs ++ ' ' :: u.data)) =
          some (jsRoundDiv (digitsToNat (ds ++ fs) * mult) (10 ^ fs.length))) := by
  refine ⟨?_, ?_, ?_⟩
  · intro s h
    rw [parseSizeToBytes, h]
  · intro ds hne hdig u mult hu
    obtain ⟨hune, halpha, hdrop, htake, hmult⟩ := sizeUnits_facts (u, mult) hu
    rw [parseSizeToBytes]
    simp only [matchSizeRegex_integer ds hne hdig u mult hu,
      parseFloatDigits_integer ds hne hdig]
    rw [hmult, pow_zero, jsRoundDiv_den_one]
  · intro ds fs hne hdig hfdig u mult hu
    obtain ⟨hune, halpha, hdrop, htake, hmult⟩ := sizeUnits_facts (u, mult) hu
    have hall : (ds ++ '.' :: fs).all isDigitOrDot = true := by
      rw [List.all_append, List.all_cons]
      rw [all_digit_digitOrDot hdig, all_digit_digitOrDot hfdig]
      decide
    have hnum : ((ds ++ '.' :: fs) ++ ' ' :: u.data).takeWhile isDigitOrDot =
        ds ++ '.' :: fs := by
      rw [takeWhile_append_all isDigitOrDot (ds ++ '.' :: fs) _ hall]
      rw [List.takeWhile_cons_of_neg (by decide)]
      simp
    have hmatch : matchSizeRegex ((ds ++ '.' :: fs) ++ ' ' :: u.data) =
        some (ds ++ '.' :: fs, u.data) := by
      rw [matchSizeRegex]
      simp only [hnum, List.drop_left]
      rw [List.dropWhile_cons_of_pos (by decide), hdrop,
        List.takeWhile_cons_of_pos (by decide), htake]
      rw [if_pos ⟨by simp, hune, halpha, rfl⟩]
    have hfloat : parseFloatDigits (ds ++ '.' :: fs) =
        some (digitsToNat (ds ++ fs), fs.length) := by
      rw [parseFloatDigits]
      have hip : (ds ++ '.' :: fs).takeWhile Char.isDigit = ds := by
        rw [takeWhile_append_all Char.isDigit ds _ hdig,
          List.takeWhile_cons_of_neg (by decide)]
        simp
      simp only [hip, List.drop_left]
      rw [takeWhile_all_eq _ fs hfdig]
      rw [if_neg (by intro h; exact hne h.1)]
    rw [parseSizeToBytes]
    simp only [hmatch, hfloat]
    rw [hmult]

/-- C8 witness: the amended theorem applied at the concrete inputs "7 MB"
and "1.5 KB" (rounded: 1536 bytes). -/
theorem parseSizeToBytes_spec_witness :
    ((['7'] : List Char) ≠ [] ∧ (['7'] : List Char).all Char.isDigit = true ∧
      ("MB", 1024 ^ 2) ∈ sizeUnits ∧
      parseSizeToBytes (String.mk (['7'] ++ ' ' :: "MB".data)) =
        some (digitsToNat ['7'] * 1024 ^ 2)) ∧
    (parseSizeToBytes (String.mk (['1'] ++ '.' :: ['5'] ++ ' ' :: "KB".data)) =
      some (jsRoundDiv (digitsToNat (['1'] ++ ['5']) * 1024) (10 ^ (['5'] : List Char).length))) :=
  ⟨⟨by decide, by decide, by decide,
    parseSizeToBytes_spec.2.1 ['7'] (by decide) (by decide) "MB" (1024 ^ 2) (by decide)⟩,
    parseSizeToBytes_spec.2.2 ['1'] ['5'] (by decide) (by decide) (by decide) "KB" 1024
      (by decide)⟩

/-! ## Torrent statistics (`NyaaService.getTorrentStats`) -/

/-- Interface `TorrentStats`; the three `Record` histograms are counting
functions, and `averageSeeders` is `none` where the JS number would be
`NaN`/`Infinity` (division by zero). -/
structure TorrentStats where
  totalTorrents : Nat
  byQuality : TorrentQuality → Nat
  byLanguage : TorrentLanguage → Nat
  byReleaseType : TorrentReleaseType → Nat
  averageSeeders : Option ℚ
  totalSize : Nat

/-- JS division as used for the mean: a zero denominator gives no finite
number. -/
def jsDiv (a b : ℚ) : Option ℚ := if b = 0 then none else some (a / b)

/-- Method `getTorrentStats` applied to the torrents stored for the anime
(the `findByAnimeId` result): zeroed stats with an early return on the empty
list; otherwise per-quality and per-release-type counting, one increment per
audio-language occurrence, summed byte size, and mean seeders. -/
def getTorrentStats (torrents : List Torrent) : TorrentStats :=
  let stats : TorrentStats := {
    totalTorrents := torrents.length
    byQuality := fun _ => 0
    byLanguage := fun _ => 0
    byReleaseType := fun _ => 0
    averageSeeders := some 0
    totalSize := 0 }
  if torrents.length = 0 then stats
  else
    let filled := torrents.foldl (fun st t =>
      { st with
        byQuality := fun q =>
          if q = t.metadata.quality then st.byQuality q + 1 else st.byQuality q
        byLanguage := fun l => st.byLanguage l + t.metadata.audioLanguages.count l
        byReleaseType := fun r =>
          if r = t.metadata.releaseType then st.byReleaseType r + 1 else st.byReleaseType r
        totalSize := st.totalSize + t.sizeBytes }) stats
    { filled with
      averageSeeders :=
        jsDiv ((torrents.map (fun t => t.seeders)).sum : ℚ) (torrents.length : ℚ) }

/-- C10: with no stored torrents every stats field is zero and every
histogram empty, and for every stored set the mean-seeders division is
guarded by the early return, so `averageSeeders` is never the undefined
0-denominator value. -/
theorem getTorrentStats_empty_safe :
    (getTorrentStats []).totalTorrents = 0 ∧
    (getTorrentStats []).averageSeeders = some 0 ∧
    (getTorrentStats []).totalSize = 0 ∧
    (∀ q, (getTorrentStats []).byQuality q = 0) ∧
    (∀ l, (getTorrentStats []).byLanguage l = 0) ∧
    (∀ r, (getTorrentStats []).byReleaseType r = 0) ∧
    (∀ ts : List Torrent, (getTorrentStats ts).averageSeeders ≠ none) := by
  refine ⟨rfl, rfl, rfl, fun q => rfl, fun l => rfl, fun r => rfl, ?_⟩
  intro ts
  cases ts with
  | nil =>
    intro h
    exact Option.noConfusion h
  | cons t rest =>
    rw [getTorrentStats]
    simp only [List.length_cons]
    rw [if_neg (by omega)]
    simp only [jsDiv]
    rw [if_neg (Nat.cast_ne_zero.mpr (by omega))]
    intro h
    exact Option.noConfusion h

end MiauIndex
